import Mathlib

/-!
Shallow embedding of the `ciphergen` repository's username generators
(`src/generators/username.rs`) and of its CLI argument surface for the
`generate markov` subcommand (`src/config.rs`), with theorems settling the
specification claims about them.

Randomness is made explicit: every call the Rust code makes into the
thread-local RNG becomes an explicit numeric input (a stream `Nat → Nat` of
raw draws).  A `choose(..).unwrap()` on a slice is modelled as an `Option`
lookup at `draw % len`, so a `none` result corresponds exactly to a panic of
the Rust code; all other panics (`output[0]` indexing) are likewise modelled
by `Option`.
-/

/-! ## Character tables (username.rs lines 6-16) -/

def VOWELS : List Char := ['a', 'e', 'i', 'o', 'u', 'y']

def CONSONANTS : List Char :=
  ['b', 'c', 'd', 'f', 'g', 'h', 'j', 'k', 'l', 'm',
   'n', 'p', 'q', 'r', 's', 't', 'v', 'w', 'x', 'z']

/-- `VOWELS.choose(rng).unwrap()`: a uniform draw from the vowel table.
`rn` is the raw random value; `choose` on a slice of length `l` picks index
`rn % l`, and returns `none` exactly when the slice is empty (the `unwrap`
panic). -/
def choose_random_vowel (rn : Nat) : Option Char :=
  VOWELS[rn % VOWELS.length]?

/-- `CONSONANTS.choose(rng).unwrap()` (username.rs lines 22-24). -/
def choose_random_consonant (rn : Nat) : Option Char :=
  CONSONANTS[rn % CONSONANTS.length]?

/-- `u8::make_ascii_uppercase` restricted to `char`: subtract 32 from a
lowercase ASCII letter, leave anything else unchanged. -/
def make_ascii_uppercase (c : Char) : Char :=
  if 'a' ≤ c ∧ c ≤ 'z' then Char.ofNat (c.toNat - 32) else c

/-- `output[0].make_ascii_uppercase()`: Rust indexing panics on an empty
vector, hence the `Option`. -/
def capitalizeFirst : List Char → Option (List Char)
  | [] => none
  | c :: cs => some (make_ascii_uppercase c :: cs)

/-- `String::into_bytes`: all generated characters are ASCII, so the UTF-8
encoding is one byte per character. -/
def intoBytes (l : List Char) : List Nat := l.map Char.toNat

/-! ## generate_simple_username (username.rs lines 71-101) -/

/-- The alternation loop of `generate_simple_username` (lines 88-94): for
each `index` in `0 .. length-1` push a vowel or a consonant according to the
starting class and the parity of `index`.  The draw for loop iteration
`index` is `r (index + 1)` (draw `r 0` was consumed by the first
character). -/
def simpleStep (start : Bool) (r : Nat → Nat) (index : Nat) : Option Char :=
  match start with
  | true =>
    if index % 2 ≠ 0 then choose_random_vowel (r (index + 1))
    else choose_random_consonant (r (index + 1))
  | false =>
    if index % 2 ≠ 0 then choose_random_consonant (r (index + 1))
    else choose_random_vowel (r (index + 1))

def simpleExtend (start : Bool) (r : Nat → Nat) (output : List Char) :
    List Nat → Option (List Char)
  | [] => some output
  | index :: rest => do
    let c ← simpleStep start r index
    simpleExtend start r (output ++ [c]) rest

/-- `generate_simple_username`, at the level of characters (before
`into_bytes`).  `start` is the coin flip `rng.gen_bool(1.0/2.0)` choosing the
class of the first character; `r` is the stream of raw draws handed to
`choose`.  Mirrors the source: empty result for `length == 0`, an early
return for `length == 1` (before the capitalization step), otherwise the
alternation loop followed by capitalization of `output[0]`. -/
def generate_simple_chars (capitalize : Bool) (length : Nat) (start : Bool)
    (r : Nat → Nat) : Option (List Char) :=
  if length = 0 then some []
  else do
    let first ← if start then choose_random_vowel (r 0)
                else choose_random_consonant (r 0)
    if length = 1 then pure [first]
    else do
      let output ← simpleExtend start r [first] (List.range (length - 1))
      if capitalize then capitalizeFirst output else pure output

/-- `generate_simple_username` (returning the byte vector). -/
def generate_simple_username (capitalize : Bool) (length : Nat) (start : Bool)
    (r : Nat → Nat) : Option (List Nat) :=
  (generate_simple_chars capitalize length start r).map intoBytes

/-! ## generate_complex_username (username.rs lines 107-128) -/

inductive SyllableType where
  | CLOSED
  | OPEN
deriving DecidableEq

/-- `random::<SyllableType>()` via `rng.gen_range(0..=1)` (lines 58-65):
`0` gives `CLOSED`, anything else gives `OPEN`. -/
def sampleSyllableType (n : Nat) : SyllableType :=
  match n % 2 with
  | 0 => SyllableType.CLOSED
  | _ => SyllableType.OPEN

/-- `create_closed_syllable` (lines 38-44): consonant, vowel, consonant. -/
def create_closed_syllable (d : Nat → Nat) : Option (List Char) := do
  let c1 ← choose_random_consonant (d 0)
  let v ← choose_random_vowel (d 1)
  let c2 ← choose_random_consonant (d 2)
  pure [c1, v, c2]

/-- `create_open_syllable` (lines 46-51): consonant, vowel. -/
def create_open_syllable (d : Nat → Nat) : Option (List Char) := do
  let c1 ← choose_random_consonant (d 0)
  let v ← choose_random_vowel (d 1)
  pure [c1, v]

/-- The syllable loop of `generate_complex_username` (lines 113-121).
`t i` is the raw draw deciding syllable `i`'s type, `r i` the draw stream
used inside syllable `i`. -/
def syllableStep (t : Nat → Nat) (r : Nat → Nat → Nat) (i : Nat) :
    Option (List Char) :=
  match sampleSyllableType (t i) with
  | SyllableType.CLOSED => create_closed_syllable (r i)
  | SyllableType.OPEN => create_open_syllable (r i)

def complexLoop (t : Nat → Nat) (r : Nat → Nat → Nat) (output : List Char) :
    List Nat → Option (List Char)
  | [] => some output
  | i :: rest => do
    let syllable ← syllableStep t r i
    complexLoop t r (output ++ syllable) rest

/-- `generate_complex_username` at the level of characters: empty result for
`length == 0`, otherwise `length` syllables concatenated, then
capitalization of `output[0]`. -/
def generate_complex_chars (capitalize : Bool) (length : Nat) (t : Nat → Nat)
    (r : Nat → Nat → Nat) : Option (List Char) :=
  if length = 0 then some []
  else do
    let output ← complexLoop t r [] (List.range length)
    if capitalize then capitalizeFirst output else pure output

/-- `generate_complex_username` (returning the byte vector). -/
def generate_complex_username (capitalize : Bool) (length : Nat)
    (t : Nat → Nat) (r : Nat → Nat → Nat) : Option (List Nat) :=
  (generate_complex_chars capitalize length t r).map intoBytes

/-! ## Closed forms used by the proofs -/

/-- ASCII lowercasing, for stating case-insensitive properties. -/
def toLowerAscii (c : Char) : Char :=
  if 'A' ≤ c ∧ c ≤ 'Z' then Char.ofNat (c.toNat + 32) else c

/-- Is a character uppercase ASCII? -/
def isUpperAscii (c : Char) : Bool := decide ('A' ≤ c ∧ c ≤ 'Z')

/-- Total version of the vowel draw (the table is non-empty). -/
def vowelOf (n : Nat) : Char :=
  VOWELS.get ⟨n % VOWELS.length, Nat.mod_lt _ (by decide)⟩

/-- Total version of the consonant draw. -/
def consOf (n : Nat) : Char :=
  CONSONANTS.get ⟨n % CONSONANTS.length, Nat.mod_lt _ (by decide)⟩

/-- The class of position `i` of a simple username: `true` means vowel.
Position `0` has the class of the coin flip `start`; classes alternate. -/
def vclass (start : Bool) (i : Nat) : Bool :=
  if i % 2 = 0 then start else !start

/-- Character at position `i` of the (uncapitalized) simple username. -/
def simpleCharAt (start : Bool) (r : Nat → Nat) (i : Nat) : Char :=
  if vclass start i then vowelOf (r i) else consOf (r i)

/-- The uncapitalized simple username as a closed-form list. -/
def simpleRaw (length : Nat) (start : Bool) (r : Nat → Nat) : List Char :=
  (List.range length).map (simpleCharAt start r)

/-- Total capitalization of the head of a list. -/
def capHead : List Char → List Char
  | [] => []
  | c :: cs => make_ascii_uppercase c :: cs

/-- The syllable produced by `syllableStep` when the raw draws are `tn`
(type) and `d` (letters), as a closed-form list. -/
def syllableOf (tn : Nat) (d : Nat → Nat) : List Char :=
  match sampleSyllableType tn with
  | SyllableType.CLOSED => [consOf (d 0), vowelOf (d 1), consOf (d 2)]
  | SyllableType.OPEN => [consOf (d 0), vowelOf (d 1)]

/-- The list of syllables of a complex username, as a closed form. -/
def complexRaw (length : Nat) (t : Nat → Nat) (r : Nat → Nat → Nat) :
    List (List Char) :=
  (List.range length).map fun i => syllableOf (t i) (r i)

/-! ## WordGenerator (modelled from the spec) -/

/-- One draw of the Sampler: a symbol, or the end-of-word sentinel. -/
inductive Draw (α : Type) where
  | sym : α → Draw α
  | sentinel : Draw α
deriving DecidableEq

/-- Modelled from the spec: `InvalidRangeError` (§7) — a length range with
`min > max` or `max == 0` is rejected before any training or generation
work begins.  The validation code is not among the sources under `src/`. -/
def validateRange (minL maxL : Nat) : Except String Unit :=
  if minL > maxL ∨ maxL = 0 then Except.error "InvalidRangeError"
  else Except.ok ()

/-- Modelled from the spec: the WordGenerator (§4.5) is not among the
sources under `src/`.  It consumes Sampler draws one at a time: on a
sentinel it emits the word when its length already lies in `[min, max]`,
discards the word and restarts when the word is still shorter than `min`;
on a symbol it appends it, forcing termination when the word reaches `max`
length.  The draw list plays the role of the random source (and of the
bounded retry budget: an exhausted list yields `none`, no word). -/
def generateWord {α : Type} (minL maxL : Nat) :
    List (Draw α) → List α → Option (List α)
  | [], _ => none
  | d :: ds, word =>
    match d with
    | Draw.sentinel =>
      if minL ≤ word.length ∧ word.length ≤ maxL then some word
      else if word.length < minL then generateWord minL maxL ds []
      else some word
    | Draw.sym a =>
      if maxL ≤ (word ++ [a]).length then some (word ++ [a])
      else generateWord minL maxL ds (word ++ [a])

/-- Modelled from the spec: "The first symbol is uppercased when
`capitalize` is set" (§4.5); the WordGenerator is not among the sources
under `src/`. -/
def applyCapitalize (capitalize : Bool) : List Char → List Char
  | [] => []
  | c :: cs => if capitalize then make_ascii_uppercase c :: cs else c :: cs

/-- Modelled from the spec: CorpusSource (§4.1, §6) reads "a corpus file
path, or standard input if omitted"; the corpus loading code is not among
the sources under `src/`. -/
inductive CorpusSource where
  | file : String → CorpusSource
  | stdin : CorpusSource
deriving DecidableEq

def corpusInput : Option String → CorpusSource
  | some p => CorpusSource.file p
  | none => CorpusSource.stdin

/-! ## CLI surface of `generate markov` (config.rs lines 137-155, 178-209)

The argument set is declared in `config.rs`; the parsing engine is the
`clap` library.  Its documented behaviour on this declaration is modelled
token by token: an option's value is the following token (a value may not
begin with `-`), an unrecognized token starting with `-` is rejected, a
bare token is the single optional positional `count`, `ArgAction::SetFalse`
on `--no-capitalize` flips the default-`true` `capitalize` field to
`false`, `default_value` strings pre-load the fields, and the
`#[group(multiple = false)]` on `CacheControl` rejects a parse that set
both of its flags.  Numeric values are modelled for plain digit strings
(`usize`) and plain decimal strings (`f64`), which covers every default. -/

structure MarkovArgs where
  capitalize : Bool
  path : Option String
  minimum : Nat
  maximum : Nat
  order : Nat
  prior : Rat
  backoff : Bool
  no_cache : Bool
  rebuild_cache : Bool
  count : Option Nat
deriving DecidableEq

/-- The declared `default_value`s: min "2", max "10", order "3", prior
"0.0"; `capitalize` is `true` by default because its flag is
`ArgAction::SetFalse`. -/
def initMarkov : MarkovArgs :=
  { capitalize := true, path := none, minimum := 2, maximum := 10,
    order := 3, prior := 0, backoff := false, no_cache := false,
    rebuild_cache := false, count := none }

/-- Which option is waiting for its value token. -/
inductive Pending where
  | input
  | min
  | max
  | order
  | prior
deriving DecidableEq

/-- `f64` parsing restricted to plain decimal strings (`"0.0"`, `"1.5"`). -/
def parseDecimal (s : String) : Option Rat :=
  match s.split (fun c => c == '.') with
  | [w] => (w.toNat?).map fun n => (n : Rat)
  | [w, f] =>
    match w.toNat?, f.toNat? with
    | some n, some fr => some ((n : Rat) + (fr : Rat) / (10 : Rat) ^ f.length)
    | _, _ => none
  | _ => none

/-- Does a token begin with a hyphen (and hence can never be consumed as an
option value or as the positional `count`)?  Stated on the character list so
that it evaluates by reduction. -/
def isFlagLike (tok : String) : Bool :=
  match tok.data with
  | [] => false
  | c :: _ => c = '-'

/-- Process one token of the `generate markov` argument list. -/
def stepTok : MarkovArgs × Option Pending → String →
    Except String (MarkovArgs × Option Pending)
  | (a, some p), tok =>
    if isFlagLike tok then Except.error "a value is required"
    else
      match p with
      | Pending.input => Except.ok ({ a with path := some tok }, none)
      | Pending.min =>
        match tok.toNat? with
        | some n => Except.ok ({ a with minimum := n }, none)
        | none => Except.error "invalid value"
      | Pending.max =>
        match tok.toNat? with
        | some n => Except.ok ({ a with maximum := n }, none)
        | none => Except.error "invalid value"
      | Pending.order =>
        match tok.toNat? with
        | some n => Except.ok ({ a with order := n }, none)
        | none => Except.error "invalid value"
      | Pending.prior =>
        match parseDecimal tok with
        | some q => Except.ok ({ a with prior := q }, none)
        | none => Except.error "invalid value"
  | (a, none), tok =>
    if tok = "-C" ∨ tok = "--no-capitalize" then
      Except.ok ({ a with capitalize := false }, none)
    else if tok = "-b" ∨ tok = "--backoff" then
      Except.ok ({ a with backoff := true }, none)
    else if tok = "-N" ∨ tok = "--no-cache" then
      Except.ok ({ a with no_cache := true }, none)
    else if tok = "-R" ∨ tok = "--rebuild-cache" then
      Except.ok ({ a with rebuild_cache := true }, none)
    else if tok = "-i" ∨ tok = "--input" then Except.ok (a, some Pending.input)
    else if tok = "-m" ∨ tok = "--min" then Except.ok (a, some Pending.min)
    else if tok = "-M" ∨ tok = "--max" then Except.ok (a, some Pending.max)
    else if tok = "-o" ∨ tok = "--order" then Except.ok (a, some Pending.order)
    else if tok = "-p" ∨ tok = "--prior" then Except.ok (a, some Pending.prior)
    else if isFlagLike tok then Except.error "unexpected argument"
    else
      match tok.toNat? with
      | some n =>
        match a.count with
        | none => Except.ok ({ a with count := some n }, none)
        | some _ => Except.error "unexpected argument"
      | none => Except.error "invalid value for count"

def parseMarkovLoop (s : MarkovArgs × Option Pending) :
    List String → Except String (MarkovArgs × Option Pending)
  | [] => Except.ok s
  | tok :: rest =>
    match stepTok s tok with
    | Except.ok s2 => parseMarkovLoop s2 rest
    | Except.error e => Except.error e

/-- Parse the whole token list of a `generate markov` invocation. -/
def parseMarkovArgs (args : List String) : Except String MarkovArgs :=
  match parseMarkovLoop (initMarkov, none) args with
  | Except.error e => Except.error e
  | Except.ok (_, some _) => Except.error "a value is required"
  | Except.ok (a, none) =>
    if a.no_cache && a.rebuild_cache then
      Except.error "cannot be used with"
    else Except.ok a

def exceptIsOk {ε α : Type} : Except ε α → Bool
  | Except.ok _ => true
  | Except.error _ => false

theorem choose_random_vowel_eq (n : Nat) :
    choose_random_vowel n = some (vowelOf n) := by
  have h : n % VOWELS.length < VOWELS.length := Nat.mod_lt _ (by decide)
  simp [choose_random_vowel, vowelOf, List.getElem?_eq_getElem h,
    List.get_eq_getElem]

theorem choose_random_consonant_eq (n : Nat) :
    choose_random_consonant n = some (consOf n) := by
  have h : n % CONSONANTS.length < CONSONANTS.length := Nat.mod_lt _ (by decide)
  simp [choose_random_consonant, consOf, List.getElem?_eq_getElem h,
    List.get_eq_getElem]

theorem vowelOf_mem (n : Nat) : vowelOf n ∈ VOWELS := by
  simp [vowelOf, List.get_eq_getElem]

theorem consOf_mem (n : Nat) : consOf n ∈ CONSONANTS := by
  simp [consOf, List.get_eq_getElem]

example : generate_simple_chars false 3 true (fun _ => 0) =
    some ['a', 'b', 'a'] := by decide

example : generate_simple_chars true 1 true (fun _ => 0) = some ['a'] := by
  decide

example : generate_complex_chars false 2 (fun _ => 0) (fun _ _ => 0) =
    some ['b', 'a', 'b', 'b', 'a', 'b'] := by decide

theorem capitalizeFirst_eq (l : List Char) (h : l ≠ []) :
    capitalizeFirst l = some (capHead l) := by
  cases l with
  | nil => exact absurd rfl h
  | cons c cs => simp [capitalizeFirst, capHead]

theorem capHead_length (l : List Char) : (capHead l).length = l.length := by
  cases l <;> simp [capHead]

theorem simpleStep_eq (start : Bool) (r : Nat → Nat) (index : Nat) :
    simpleStep start r index = some (simpleCharAt start r (index + 1)) := by
  by_cases h : index % 2 = 0
  · have h2 : (index + 1) % 2 = 1 := by omega
    cases start <;>
      simp [simpleStep, h, simpleCharAt, vclass, h2, choose_random_vowel_eq,
        choose_random_consonant_eq]
  · have h2 : (index + 1) % 2 = 0 := by omega
    cases start <;>
      simp [simpleStep, h, simpleCharAt, vclass, h2, choose_random_vowel_eq,
        choose_random_consonant_eq]

theorem simpleExtend_eq (start : Bool) (r : Nat → Nat) :
    ∀ (k a : Nat) (output : List Char),
      simpleExtend start r output (List.range' a k) =
        some (output ++ (List.range' a k).map fun idx =>
          simpleCharAt start r (idx + 1)) := by
  intro k
  induction k with
  | zero => intro a output; simp [simpleExtend]
  | succ k ih =>
    intro a output
    rw [List.range'_succ]
    simp only [simpleExtend, simpleStep_eq, Option.bind_eq_bind,
      Option.some_bind, List.map_cons]
    rw [ih (a + 1) (output ++ [simpleCharAt start r (a + 1)])]
    simp

theorem simpleExtend_range (start : Bool) (r : Nat → Nat) (n : Nat)
    (output : List Char) :
    simpleExtend start r output (List.range n) =
      some (output ++ (List.range n).map fun idx =>
        simpleCharAt start r (idx + 1)) := by
  rw [List.range_eq_range', simpleExtend_eq, ← List.range_eq_range']

theorem simpleCharAt_zero (start : Bool) (r : Nat → Nat) :
    (if start then choose_random_vowel (r 0) else choose_random_consonant (r 0)) =
      some (simpleCharAt start r 0) := by
  cases start <;>
    simp [simpleCharAt, vclass, choose_random_vowel_eq, choose_random_consonant_eq]

theorem simpleRaw_cons (n : Nat) (start : Bool) (r : Nat → Nat) :
    simpleRaw (n + 1) start r =
      simpleCharAt start r 0 ::
        (List.range n).map fun idx => simpleCharAt start r (idx + 1) := by
  simp [simpleRaw, List.range_succ_eq_map, List.map_map, Function.comp_def]

theorem generate_simple_chars_eq (capitalize : Bool) (length : Nat)
    (start : Bool) (r : Nat → Nat) (h : 1 ≤ length) :
    generate_simple_chars capitalize length start r =
      some (if length = 1 then simpleRaw 1 start r
            else if capitalize then capHead (simpleRaw length start r)
            else simpleRaw length start r) := by
  have h0 : ¬ length = 0 := by omega
  by_cases h1 : length = 1
  · subst h1
    cases start <;>
      simp [generate_simple_chars, choose_random_vowel_eq,
        choose_random_consonant_eq, simpleRaw, List.range_succ, simpleCharAt,
        vclass]
  · obtain ⟨m, rfl⟩ : ∃ m, length = m + 2 := ⟨length - 2, by omega⟩
    cases capitalize <;> cases start <;>
      simp [generate_simple_chars, h0, h1, choose_random_vowel_eq,
        choose_random_consonant_eq, simpleExtend_range, capitalizeFirst,
        capHead, simpleRaw_cons, simpleCharAt, vclass]

theorem lower_of_mem_vowels : ∀ c ∈ VOWELS, toLowerAscii c = c := by decide

theorem lower_of_mem_consonants : ∀ c ∈ CONSONANTS, toLowerAscii c = c := by
  decide

theorem lower_upper_of_mem_vowels :
    ∀ c ∈ VOWELS, toLowerAscii (make_ascii_uppercase c) = c := by decide

theorem lower_upper_of_mem_consonants :
    ∀ c ∈ CONSONANTS, toLowerAscii (make_ascii_uppercase c) = c := by decide

theorem vowels_contains_of_mem : ∀ c ∈ VOWELS, VOWELS.contains c = true := by
  decide

theorem vowels_not_contains_of_mem :
    ∀ c ∈ CONSONANTS, VOWELS.contains c = false := by decide

theorem simpleCharAt_mem (start : Bool) (r : Nat → Nat) (i : Nat) :
    simpleCharAt start r i ∈ VOWELS ∨ simpleCharAt start r i ∈ CONSONANTS := by
  by_cases h : vclass start i = true
  · exact Or.inl (by simp [simpleCharAt, h, vowelOf_mem])
  · exact Or.inr (by simp [simpleCharAt, h, consOf_mem])

theorem lower_simpleCharAt (start : Bool) (r : Nat → Nat) (i : Nat) :
    toLowerAscii (simpleCharAt start r i) = simpleCharAt start r i := by
  rcases simpleCharAt_mem start r i with h | h
  · exact lower_of_mem_vowels _ h
  · exact lower_of_mem_consonants _ h

theorem lower_upper_simpleCharAt (start : Bool) (r : Nat → Nat) (i : Nat) :
    toLowerAscii (make_ascii_uppercase (simpleCharAt start r i)) =
      simpleCharAt start r i := by
  rcases simpleCharAt_mem start r i with h | h
  · exact lower_upper_of_mem_vowels _ h
  · exact lower_upper_of_mem_consonants _ h

theorem contains_simpleCharAt (start : Bool) (r : Nat → Nat) (i : Nat) :
    VOWELS.contains (simpleCharAt start r i) = vclass start i := by
  by_cases h : vclass start i = true
  · rw [h]; simp only [simpleCharAt, h, if_true]
    exact vowels_contains_of_mem _ (vowelOf_mem _)
  · have h2 : vclass start i = false := by
      revert h; cases vclass start i <;> simp
    rw [h2]; simp only [simpleCharAt, h2, if_false, Bool.false_eq_true]
    exact vowels_not_contains_of_mem _ (consOf_mem _)

theorem vclass_ne_succ (start : Bool) (i : Nat) :
    vclass start i ≠ vclass start (i + 1) := by
  by_cases h : i % 2 = 0
  · have h2 : (i + 1) % 2 = 1 := by omega
    cases start <;> simp [vclass, h, h2]
  · have h2 : (i + 1) % 2 = 0 := by omega
    cases start <;> simp [vclass, h, h2]

theorem map_lower_simpleRaw (n : Nat) (start : Bool) (r : Nat → Nat) :
    (simpleRaw n start r).map toLowerAscii = simpleRaw n start r := by
  have h : ∀ c ∈ simpleRaw n start r, toLowerAscii c = c := by
    intro c hc
    rcases List.mem_map.1 hc with ⟨i, _, rfl⟩
    exact lower_simpleCharAt start r i
  calc (simpleRaw n start r).map toLowerAscii
      = (simpleRaw n start r).map id := List.map_congr_left h
    _ = simpleRaw n start r := List.map_id _

theorem simpleRaw_length (n : Nat) (start : Bool) (r : Nat → Nat) :
    (simpleRaw n start r).length = n := by simp [simpleRaw]

theorem map_lower_capHead_simpleRaw (n : Nat) (start : Bool) (r : Nat → Nat) :
    (capHead (simpleRaw (n + 1) start r)).map toLowerAscii =
      simpleRaw (n + 1) start r := by
  rw [simpleRaw_cons]
  simp only [capHead, List.map_cons, lower_upper_simpleCharAt]
  congr 1
  have hfix : ∀ c ∈ (List.range n).map
      (fun idx => simpleCharAt start r (idx + 1)), toLowerAscii c = c := by
    intro c hc
    rcases List.mem_map.1 hc with ⟨i, _, rfl⟩
    exact lower_simpleCharAt _ _ _
  exact (List.map_congr_left hfix).trans (List.map_id _)

theorem generate_simple_chars_map_lower (capitalize : Bool) (length : Nat)
    (start : Bool) (r : Nat → Nat) (h : 1 ≤ length) :
    ∃ w, generate_simple_chars capitalize length start r = some w ∧
      w.map toLowerAscii = simpleRaw length start r ∧ w.length = length := by
  rw [generate_simple_chars_eq capitalize length start r h]
  by_cases h1 : length = 1
  · subst h1
    exact ⟨_, rfl, by simp [map_lower_simpleRaw, simpleRaw_length]⟩
  · cases capitalize with
    | false =>
      simp only [if_neg h1, Bool.false_eq_true]
      exact ⟨_, rfl, by simp [map_lower_simpleRaw, simpleRaw_length]⟩
    | true =>
      simp only [if_neg h1, ite_true]
      obtain ⟨m, rfl⟩ : ∃ m, length = m + 1 := ⟨length - 1, by omega⟩
      exact ⟨_, rfl, map_lower_capHead_simpleRaw m start r,
        by rw [capHead_length, simpleRaw_length]⟩

/-! ## Complex-generator closed form -/

theorem syllableStep_eq (t : Nat → Nat) (r : Nat → Nat → Nat) (i : Nat) :
    syllableStep t r i = some (syllableOf (t i) (r i)) := by
  cases h : sampleSyllableType (t i) <;>
    simp [syllableStep, syllableOf, h, create_closed_syllable,
      create_open_syllable, choose_random_vowel_eq, choose_random_consonant_eq]

theorem complexLoop_eq (t : Nat → Nat) (r : Nat → Nat → Nat) :
    ∀ (k a : Nat) (output : List Char),
      complexLoop t r output (List.range' a k) =
        some (output ++
          ((List.range' a k).map fun i => syllableOf (t i) (r i)).flatten) := by
  intro k
  induction k with
  | zero => intro a output; simp [complexLoop]
  | succ k ih =>
    intro a output
    rw [List.range'_succ]
    simp only [complexLoop, syllableStep_eq, Option.bind_eq_bind,
      Option.some_bind, List.map_cons, List.flatten_cons]
    rw [ih (a + 1) (output ++ syllableOf (t a) (r a))]
    simp

theorem complexLoop_range (t : Nat → Nat) (r : Nat → Nat → Nat) (n : Nat)
    (output : List Char) :
    complexLoop t r output (List.range n) =
      some (output ++ (complexRaw n t r).flatten) := by
  rw [List.range_eq_range', complexLoop_eq, complexRaw, ← List.range_eq_range']

theorem syllableOf_head (tn : Nat) (d : Nat → Nat) :
    ∃ tl, syllableOf tn d = consOf (d 0) :: tl := by
  cases h : sampleSyllableType tn
  · exact ⟨[vowelOf (d 1), consOf (d 2)], by simp [syllableOf, h]⟩
  · exact ⟨[vowelOf (d 1)], by simp [syllableOf, h]⟩

theorem syllableOf_length (tn : Nat) (d : Nat → Nat) :
    2 ≤ (syllableOf tn d).length ∧ (syllableOf tn d).length ≤ 3 := by
  cases h : sampleSyllableType tn <;> simp [syllableOf, h]

theorem syllableOf_shape (tn : Nat) (d : Nat → Nat) :
    (∃ c v, syllableOf tn d = [c, v] ∧ c ∈ CONSONANTS ∧ v ∈ VOWELS) ∨
    (∃ c v c2, syllableOf tn d = [c, v, c2] ∧ c ∈ CONSONANTS ∧ v ∈ VOWELS ∧
      c2 ∈ CONSONANTS) := by
  cases h : sampleSyllableType tn
  · exact Or.inr ⟨consOf (d 0), vowelOf (d 1), consOf (d 2),
      by simp [syllableOf, h], consOf_mem _, vowelOf_mem _, consOf_mem _⟩
  · exact Or.inl ⟨consOf (d 0), vowelOf (d 1), by simp [syllableOf, h],
      consOf_mem _, vowelOf_mem _⟩

theorem syllableOf_all_mem (tn : Nat) (d : Nat → Nat) :
    ∀ ch ∈ syllableOf tn d, ch ∈ VOWELS ∨ ch ∈ CONSONANTS := by
  intro ch hch
  cases h : sampleSyllableType tn <;> simp [syllableOf, h] at hch
  · rcases hch with rfl | rfl | rfl
    · exact Or.inr (consOf_mem _)
    · exact Or.inl (vowelOf_mem _)
    · exact Or.inr (consOf_mem _)
  · rcases hch with rfl | rfl
    · exact Or.inr (consOf_mem _)
    · exact Or.inl (vowelOf_mem _)

theorem flatten_length_bounds :
    ∀ l : List (List Char), (∀ s ∈ l, 2 ≤ s.length ∧ s.length ≤ 3) →
      2 * l.length ≤ l.flatten.length ∧ l.flatten.length ≤ 3 * l.length := by
  intro l
  induction l with
  | nil => simp
  | cons s rest ih =>
    intro hs
    have h1 := hs s (List.mem_cons_self _ _)
    have h2 := ih fun x hx => hs x (List.mem_cons_of_mem _ hx)
    simp only [List.flatten_cons, List.length_append, List.length_cons]
    omega

theorem complexRaw_length (n : Nat) (t : Nat → Nat) (r : Nat → Nat → Nat) :
    (complexRaw n t r).length = n := by simp [complexRaw]

theorem complexRaw_syllable_lengths (n : Nat) (t : Nat → Nat)
    (r : Nat → Nat → Nat) :
    ∀ s ∈ complexRaw n t r, 2 ≤ s.length ∧ s.length ≤ 3 := by
  intro s hs
  rcases List.mem_map.1 hs with ⟨i, _, rfl⟩
  exact syllableOf_length _ _

theorem complexFlatten_mem_sets (n : Nat) (t : Nat → Nat)
    (r : Nat → Nat → Nat) :
    ∀ c ∈ (complexRaw n t r).flatten, c ∈ VOWELS ∨ c ∈ CONSONANTS := by
  intro c hc
  rcases List.mem_flatten.1 hc with ⟨s, hs, hcs⟩
  rcases List.mem_map.1 hs with ⟨i, _, rfl⟩
  exact syllableOf_all_mem _ _ c hcs

theorem lower_upper_of_mem_sets (c : Char)
    (h : c ∈ VOWELS ∨ c ∈ CONSONANTS) :
    toLowerAscii (make_ascii_uppercase c) = c := by
  rcases h with h | h
  · exact lower_upper_of_mem_vowels _ h
  · exact lower_upper_of_mem_consonants _ h

theorem map_lower_of_mem_sets (l : List Char)
    (h : ∀ c ∈ l, c ∈ VOWELS ∨ c ∈ CONSONANTS) :
    l.map toLowerAscii = l := by
  have hfix : ∀ c ∈ l, toLowerAscii c = c := by
    intro c hc
    rcases h c hc with hv | hk
    · exact lower_of_mem_vowels _ hv
    · exact lower_of_mem_consonants _ hk
  exact (List.map_congr_left hfix).trans (List.map_id _)

theorem map_lower_capHead_of_mem_sets (l : List Char)
    (h : ∀ c ∈ l, c ∈ VOWELS ∨ c ∈ CONSONANTS) :
    (capHead l).map toLowerAscii = l := by
  cases l with
  | nil => simp [capHead]
  | cons c cs =>
    simp only [capHead, List.map_cons]
    rw [lower_upper_of_mem_sets c (h c (List.mem_cons_self _ _))]
    congr 1
    exact map_lower_of_mem_sets cs fun x hx => h x (List.mem_cons_of_mem _ hx)

theorem generate_complex_chars_eq (capitalize : Bool) (length : Nat)
    (t : Nat → Nat) (r : Nat → Nat → Nat) (h : 1 ≤ length) :
    generate_complex_chars capitalize length t r =
      some (if capitalize then capHead (complexRaw length t r).flatten
            else (complexRaw length t r).flatten) := by
  have h0 : ¬ length = 0 := by omega
  obtain ⟨m, rfl⟩ : ∃ m, length = m + 1 := ⟨length - 1, by omega⟩
  have hne : (complexRaw (m + 1) t r).flatten ≠ [] := by
    obtain ⟨tl, htl⟩ := syllableOf_head (t 0) (r 0)
    rw [complexRaw, List.range_succ_eq_map]
    simp [htl]
  cases capitalize with
  | false => simp [generate_complex_chars, h0, complexLoop_range]
  | true =>
    simp only [generate_complex_chars, if_neg h0, complexLoop_range,
      Option.bind_eq_bind, Option.some_bind, List.nil_append, ite_true]
    rw [capitalizeFirst_eq _ hne]

theorem generate_complex_chars_spec (capitalize : Bool) (length : Nat)
    (t : Nat → Nat) (r : Nat → Nat → Nat) (h : 1 ≤ length) :
    ∃ w, generate_complex_chars capitalize length t r = some w ∧
      w.map toLowerAscii = (complexRaw length t r).flatten ∧
      w.length = (complexRaw length t r).flatten.length ∧
      (capitalize = false → w = (complexRaw length t r).flatten) := by
  rw [generate_complex_chars_eq capitalize length t r h]
  cases capitalize with
  | false =>
    refine ⟨_, rfl, ?_, ?_, ?_⟩ <;>
      simp [map_lower_of_mem_sets _ (complexFlatten_mem_sets length t r)]
  | true =>
    simp only [ite_true]
    refine ⟨_, rfl,
      map_lower_capHead_of_mem_sets _ (complexFlatten_mem_sets length t r),
      capHead_length _, ?_⟩
    intro hc
    exact absurd hc (by simp)

/-! ## Claim theorems: username generators -/

/-- C2: for every capitalize flag and every length ≥ 1, the output of
`generate_simple_username` follows the fixed alternating vowel/consonant
pattern: every character (ignoring the case change of the first character)
is drawn from the 6-element vowel table or the 20-element consonant table,
and no two adjacent characters belong to the same class. -/
theorem simple_username_alternation (capitalize : Bool) (length : Nat)
    (start : Bool) (r : Nat → Nat) (h : 1 ≤ length) :
    ∃ w, generate_simple_chars capitalize length start r = some w ∧
      (∀ c ∈ w, toLowerAscii c ∈ VOWELS ∨ toLowerAscii c ∈ CONSONANTS) ∧
      List.Chain' (fun a b =>
        VOWELS.contains (toLowerAscii a) ≠ VOWELS.contains (toLowerAscii b))
        w := by
  obtain ⟨w, hw, hmap, hlen⟩ :=
    generate_simple_chars_map_lower capitalize length start r h
  refine ⟨w, hw, ?_, ?_⟩
  · intro c hc
    have hmem : toLowerAscii c ∈ simpleRaw length start r := by
      rw [← hmap]; exact List.mem_map_of_mem _ hc
    rcases List.mem_map.1 hmem with ⟨i, _, hi⟩
    rw [← hi]
    exact simpleCharAt_mem start r i
  · have h1 : List.Chain' (fun x y => VOWELS.contains x ≠ VOWELS.contains y)
        (w.map toLowerAscii) := by
      rw [hmap, simpleRaw, List.chain'_map]
      obtain ⟨m, rfl⟩ : ∃ m, length = m + 1 := ⟨length - 1, by omega⟩
      refine (List.chain'_range_succ _ m).2 ?_
      intro i _
      rw [contains_simpleCharAt, contains_simpleCharAt]
      exact vclass_ne_succ start i
    exact (List.chain'_map toLowerAscii).1 h1

theorem simple_username_alternation_witness :
    ∃ w, generate_simple_chars true 3 true (fun _ => 0) = some w ∧
      (∀ c ∈ w, toLowerAscii c ∈ VOWELS ∨ toLowerAscii c ∈ CONSONANTS) ∧
      List.Chain' (fun a b =>
        VOWELS.contains (toLowerAscii a) ≠ VOWELS.contains (toLowerAscii b))
        w :=
  simple_username_alternation true 3 true (fun _ => 0) (by decide)

/-- C3: for every capitalize flag and every length n ≥ 1, the output of
`generate_complex_username` is a concatenation of exactly n syllables, each
independently consonant-vowel (open) or consonant-vowel-consonant (closed)
over the vowel and consonant tables; when `capitalize` is false the output
is literally that concatenation, and in general it equals it after undoing
the case change of the first character. -/
theorem complex_username_syllables (capitalize : Bool) (length : Nat)
    (t : Nat → Nat) (r : Nat → Nat → Nat) (h : 1 ≤ length) :
    ∃ (w : List Char) (syls : List (List Char)),
      generate_complex_chars capitalize length t r = some w ∧
      syls.length = length ∧
      (∀ s ∈ syls,
        (∃ c v, s = [c, v] ∧ c ∈ CONSONANTS ∧ v ∈ VOWELS) ∨
        (∃ c v c2, s = [c, v, c2] ∧ c ∈ CONSONANTS ∧ v ∈ VOWELS ∧
          c2 ∈ CONSONANTS)) ∧
      w.map toLowerAscii = syls.flatten ∧
      (capitalize = false → w = syls.flatten) := by
  obtain ⟨w, hw, hmap, _, hexact⟩ :=
    generate_complex_chars_spec capitalize length t r h
  refine ⟨w, complexRaw length t r, hw, complexRaw_length length t r, ?_,
    hmap, hexact⟩
  intro s hs
  rcases List.mem_map.1 hs with ⟨i, _, rfl⟩
  exact syllableOf_shape _ _

theorem complex_username_syllables_witness :
    ∃ (w : List Char) (syls : List (List Char)),
      generate_complex_chars true 2 (fun _ => 0) (fun _ _ => 0) = some w ∧
      syls.length = 2 ∧
      (∀ s ∈ syls,
        (∃ c v, s = [c, v] ∧ c ∈ CONSONANTS ∧ v ∈ VOWELS) ∨
        (∃ c v c2, s = [c, v, c2] ∧ c ∈ CONSONANTS ∧ v ∈ VOWELS ∧
          c2 ∈ CONSONANTS)) ∧
      w.map toLowerAscii = syls.flatten ∧
      (true = false → w = syls.flatten) :=
  complex_username_syllables true 2 (fun _ => 0) (fun _ _ => 0) (by decide)

/-- C8: for every capitalize flag and every length, `generate_simple_username`
returns exactly `length` bytes (one per character), and
`generate_complex_username` returns between `2 * length` and `3 * length`
bytes inclusive. -/
theorem username_output_lengths (capitalize : Bool) (length : Nat)
    (start : Bool) (r : Nat → Nat) (t : Nat → Nat) (rr : Nat → Nat → Nat) :
    (∃ bs, generate_simple_username capitalize length start r = some bs ∧
      bs.length = length) ∧
    (∃ bs, generate_complex_username capitalize length t rr = some bs ∧
      2 * length ≤ bs.length ∧ bs.length ≤ 3 * length) := by
  constructor
  · rcases Nat.eq_zero_or_pos length with rfl | hpos
    · exact ⟨[], by simp [generate_simple_username, generate_simple_chars,
        intoBytes], rfl⟩
    · obtain ⟨w, hw, _, hlen⟩ :=
        generate_simple_chars_map_lower capitalize length start r hpos
      exact ⟨intoBytes w, by simp [generate_simple_username, hw],
        by simp [intoBytes, hlen]⟩
  · rcases Nat.eq_zero_or_pos length with rfl | hpos
    · exact ⟨[], by simp [generate_complex_username, generate_complex_chars,
        intoBytes], by simp⟩
    · obtain ⟨w, hw, _, hlen, _⟩ :=
        generate_complex_chars_spec capitalize length t rr hpos
      obtain ⟨hb1, hb2⟩ :=
        flatten_length_bounds (complexRaw length t rr)
          (complexRaw_syllable_lengths length t rr)
      rw [complexRaw_length] at hb1 hb2
      refine ⟨intoBytes w, by simp [generate_complex_username, hw], ?_, ?_⟩
      · have hib : (intoBytes w).length = w.length := by simp [intoBytes]
        omega
      · have hib : (intoBytes w).length = w.length := by simp [intoBytes]
        omega

/-- C10: for every capitalize flag and every length, with any random draws,
both generators return normally (no panic): the result is always `some`,
and `length = 0` yields the empty byte vector even when `capitalize` is
true. -/
theorem username_no_panic (capitalize : Bool) (length : Nat) (start : Bool)
    (r : Nat → Nat) (t : Nat → Nat) (rr : Nat → Nat → Nat) :
    (generate_simple_username capitalize length start r).isSome = true ∧
    (generate_complex_username capitalize length t rr).isSome = true ∧
    generate_simple_username capitalize 0 start r = some [] ∧
    generate_complex_username capitalize 0 t rr = some [] := by
  refine ⟨?_, ?_,
    by simp [generate_simple_username, generate_simple_chars, intoBytes],
    by simp [generate_complex_username, generate_complex_chars, intoBytes]⟩
  · rcases Nat.eq_zero_or_pos length with rfl | hpos
    · simp [generate_simple_username, generate_simple_chars, intoBytes]
    · obtain ⟨w, hw, _, _⟩ :=
        generate_simple_chars_map_lower capitalize length start r hpos
      simp [generate_simple_username, hw]
  · rcases Nat.eq_zero_or_pos length with rfl | hpos
    · simp [generate_complex_username, generate_complex_chars, intoBytes]
    · obtain ⟨w, hw, _, _, _⟩ :=
        generate_complex_chars_spec capitalize length t rr hpos
      simp [generate_complex_username, hw]

/-- C9 (code bug): `generate_simple_username` returns at `length == 1`
before the capitalization step, so a single-character simple username stays
lowercase even though `capitalize` is true — while at `length == 2` the
same flag does uppercase the first character (and the flag's own help text
says "Make the first letter uppercase"). -/
theorem simple_length_one_capitalize_ignored :
    generate_simple_username true 1 true (fun _ => 0) = some [97] ∧
    generate_simple_chars true 1 true (fun _ => 0) = some ['a'] ∧
    isUpperAscii 'a' = false ∧
    generate_simple_chars true 2 true (fun _ => 0) = some ['A', 'b'] ∧
    isUpperAscii 'A' = true := by
  refine ⟨rfl, rfl, rfl, ?_, rfl⟩
  decide

/-! ## Claim theorem: WordGenerator length range (modelled from the spec) -/

theorem generateWord_invariant {α : Type} (minL maxL : Nat) (h1 : minL ≤ maxL)
    (h2 : 0 < maxL) :
    ∀ (ds : List (Draw α)) (word : List α), word.length < maxL →
      ∀ w, generateWord minL maxL ds word = some w →
        minL ≤ w.length ∧ w.length ≤ maxL := by
  intro ds
  induction ds with
  | nil => intro word _ w hw; simp [generateWord] at hw
  | cons d ds ih =>
    intro word hlt w hw
    cases d with
    | sentinel =>
      simp only [generateWord] at hw
      by_cases hc : minL ≤ word.length ∧ word.length ≤ maxL
      · rw [if_pos hc] at hw
        rw [Option.some_inj] at hw
        exact hw ▸ hc
      · rw [if_neg hc] at hw
        by_cases hc2 : word.length < minL
        · rw [if_pos hc2] at hw
          exact ih [] (by simpa using h2) w hw
        · rw [if_neg hc2] at hw
          rw [Option.some_inj] at hw
          exact absurd ⟨by omega, by omega⟩ hc
    | sym x =>
      simp only [generateWord] at hw
      by_cases hc : maxL ≤ (word ++ [x]).length
      · rw [if_pos hc] at hw
        rw [Option.some_inj] at hw
        subst hw
        simp only [List.length_append, List.length_cons, List.length_nil] at hc ⊢
        omega
      · rw [if_neg hc] at hw
        refine ih (word ++ [x]) ?_ w hw
        simp only [List.length_append, List.length_cons, List.length_nil] at hc ⊢
        omega

/-- C6: for every validated length range (the spec rejects `min > max` and
`max == 0` with `InvalidRangeError` before generation) and every sequence of
Sampler draws — hence for every trained model — a word emitted by the
WordGenerator has length at least `min` and at most `max`. -/
theorem generated_word_length_in_range {α : Type} (minL maxL : Nat)
    (hv : validateRange minL maxL = Except.ok ()) (ds : List (Draw α))
    (w : List α) (hw : generateWord minL maxL ds [] = some w) :
    minL ≤ w.length ∧ w.length ≤ maxL := by
  have hcond : ¬(minL > maxL ∨ maxL = 0) := by
    intro hc
    simp [validateRange, hc] at hv
  obtain ⟨hle, hne⟩ := not_or.1 hcond
  have h1 : minL ≤ maxL := by omega
  have h2 : 0 < maxL := by omega
  exact generateWord_invariant minL maxL h1 h2 ds [] (by simpa using h2) w hw

theorem generated_word_length_in_range_witness :
    2 ≤ (['a', 'b'] : List Char).length ∧
      (['a', 'b'] : List Char).length ≤ 3 :=
  generated_word_length_in_range 2 3 rfl
    [Draw.sym 'a', Draw.sym 'b', Draw.sentinel] ['a', 'b'] (by decide)

/-! ## Parser infrastructure -/

theorem parseMarkovLoop_inv (Q : MarkovArgs × Option Pending → Prop)
    (bads : List String)
    (hstep : ∀ s tok s2, stepTok s tok = Except.ok s2 → tok ∉ bads →
      Q s → Q s2) :
    ∀ (args : List String) (s s2 : MarkovArgs × Option Pending),
      parseMarkovLoop s args = Except.ok s2 →
      (∀ b ∈ bads, b ∉ args) → Q s → Q s2 := by
  intro args
  induction args with
  | nil =>
    intro s s2 h _ hQ
    simp only [parseMarkovLoop] at h
    rw [Except.ok.injEq] at h
    exact h ▸ hQ
  | cons tok rest ih =>
    intro s s2 h hb hQ
    simp only [parseMarkovLoop] at h
    cases hst : stepTok s tok with
    | error e => simp only [hst] at h; exact Except.noConfusion h
    | ok s1 =>
      simp only [hst] at h
      have htok : tok ∉ bads := fun hmem => hb tok hmem (List.mem_cons_self _ _)
      exact ih s1 s2 h
        (fun b hbm hbr => hb b hbm (List.mem_cons_of_mem _ hbr))
        (hstep s tok s1 hst htok hQ)

theorem stepTok_pending_flagLike (a : MarkovArgs) (p : Pending) (tok : String)
    (h : isFlagLike tok = true) :
    stepTok (a, some p) tok = Except.error "a value is required" := by
  simp [stepTok, h]

theorem parseMarkovLoop_flag (Q : MarkovArgs × Option Pending → Prop)
    (flag : String) (hflag : isFlagLike flag = true)
    (hset : ∀ a s2, stepTok (a, none) flag = Except.ok s2 → Q s2)
    (hmono : ∀ s tok s2, stepTok s tok = Except.ok s2 → Q s → Q s2) :
    ∀ (args : List String) (s s2 : MarkovArgs × Option Pending),
      parseMarkovLoop s args = Except.ok s2 → flag ∈ args → Q s2 := by
  intro args
  induction args with
  | nil => intro s s2 _ hmem; exact absurd hmem (List.not_mem_nil _)
  | cons tok rest ih =>
    intro s s2 h hmem
    simp only [parseMarkovLoop] at h
    cases hst : stepTok s tok with
    | error e => simp only [hst] at h; exact Except.noConfusion h
    | ok s1 =>
      simp only [hst] at h
      rcases List.mem_cons.1 hmem with rfl | hmem2
      · rcases s with ⟨a, p⟩
        cases p with
        | some pp =>
          rw [stepTok_pending_flagLike a pp flag hflag] at hst
          exact Except.noConfusion hst
        | none =>
          exact parseMarkovLoop_inv Q []
            (fun s3 tok3 s4 hstp _ => hmono s3 tok3 s4 hstp) rest s1 s2 h
            (by simp) (hset a s1 hst)
      · exact ih s1 s2 h hmem2

set_option maxHeartbeats 1000000 in
theorem stepTok_mono (s : MarkovArgs × Option Pending) (tok : String)
    (s2 : MarkovArgs × Option Pending) (h : stepTok s tok = Except.ok s2) :
    (s.1.no_cache = true → s2.1.no_cache = true) ∧
    (s.1.rebuild_cache = true → s2.1.rebuild_cache = true) ∧
    (s.1.capitalize = false → s2.1.capitalize = false) := by
  rcases s with ⟨a, p⟩
  cases p with
  | some pp =>
    simp only [stepTok] at h
    split at h
    · exact Except.noConfusion h
    · cases pp <;> (repeat' split at h) <;>
        first
          | exact Except.noConfusion h
          | (rw [Except.ok.injEq] at h; subst h;
             exact ⟨fun hq => hq, fun hq => hq, fun hq => hq⟩)
  | none =>
    simp only [stepTok] at h
    repeat' split at h
    all_goals
      first
        | exact Except.noConfusion h
        | (rw [Except.ok.injEq] at h; subst h;
           refine ⟨fun hq => ?_, fun hq => ?_, fun hq => ?_⟩ <;>
             first | rfl | exact hq)

theorem stepTok_set_no_cache_short (a : MarkovArgs) :
    stepTok (a, none) "-N" = Except.ok ({ a with no_cache := true }, none) := by
  simp [stepTok]

theorem stepTok_set_no_cache_long (a : MarkovArgs) :
    stepTok (a, none) "--no-cache" =
      Except.ok ({ a with no_cache := true }, none) := by
  simp [stepTok]

theorem stepTok_set_rebuild_short (a : MarkovArgs) :
    stepTok (a, none) "-R" =
      Except.ok ({ a with rebuild_cache := true }, none) := by
  simp [stepTok]

theorem stepTok_set_rebuild_long (a : MarkovArgs) :
    stepTok (a, none) "--rebuild-cache" =
      Except.ok ({ a with rebuild_cache := true }, none) := by
  simp [stepTok]

theorem stepTok_set_capitalize_short (a : MarkovArgs) :
    stepTok (a, none) "-C" =
      Except.ok ({ a with capitalize := false }, none) := by
  simp [stepTok]

theorem stepTok_set_capitalize_long (a : MarkovArgs) :
    stepTok (a, none) "--no-capitalize" =
      Except.ok ({ a with capitalize := false }, none) := by
  simp [stepTok]

set_option maxHeartbeats 1000000 in
theorem stepTok_capitalize_true (s : MarkovArgs × Option Pending)
    (tok : String) (s2 : MarkovArgs × Option Pending)
    (h : stepTok s tok = Except.ok s2)
    (htok : tok ∉ (["-C", "--no-capitalize"] : List String))
    (hQ : s.1.capitalize = true) : s2.1.capitalize = true := by
  have h1 : tok ≠ "-C" := fun hc => htok (by simp [hc])
  have h2 : tok ≠ "--no-capitalize" := fun hc => htok (by simp [hc])
  rcases s with ⟨a, p⟩
  cases p with
  | some pp =>
    simp only [stepTok] at h
    split at h
    · exact Except.noConfusion h
    · cases pp <;> (repeat' split at h) <;>
        first
          | exact Except.noConfusion h
          | (rw [Except.ok.injEq] at h; subst h; exact hQ)
  | none =>
    simp only [stepTok] at h
    repeat' split at h
    all_goals
      first
        | exact Except.noConfusion h
        | (rw [Except.ok.injEq] at h; subst h; exact hQ)
        | simp_all

set_option maxHeartbeats 1000000 in
theorem stepTok_pres_min (s : MarkovArgs × Option Pending) (tok : String)
    (s2 : MarkovArgs × Option Pending) (h : stepTok s tok = Except.ok s2)
    (htok : tok ∉ (["-m", "--min"] : List String))
    (hQ : s.1.minimum = 2 ∧ s.2 ≠ some Pending.min) :
    s2.1.minimum = 2 ∧ s2.2 ≠ some Pending.min := by
  have h1 : tok ≠ "-m" := fun hc => htok (by simp [hc])
  have h2 : tok ≠ "--min" := fun hc => htok (by simp [hc])
  obtain ⟨hm, hp⟩ := hQ
  rcases s with ⟨a, p⟩
  cases p with
  | some pp =>
    simp only [stepTok] at h
    split at h
    · exact Except.noConfusion h
    · cases pp <;> (repeat' split at h) <;>
        first
          | exact Except.noConfusion h
          | exact absurd rfl hp
          | (rw [Except.ok.injEq] at h; subst h; refine ⟨hm, ?_⟩; simp; done)
          | simp_all
  | none =>
    simp only [stepTok] at h
    repeat' split at h
    all_goals
      first
        | exact Except.noConfusion h
        | (rw [Except.ok.injEq] at h; subst h; refine ⟨hm, ?_⟩; simp; done)
        | simp_all

set_option maxHeartbeats 1000000 in
theorem stepTok_pres_max (s : MarkovArgs × Option Pending) (tok : String)
    (s2 : MarkovArgs × Option Pending) (h : stepTok s tok = Except.ok s2)
    (htok : tok ∉ (["-M", "--max"] : List String))
    (hQ : s.1.maximum = 10 ∧ s.2 ≠ some Pending.max) :
    s2.1.maximum = 10 ∧ s2.2 ≠ some Pending.max := by
  have h1 : tok ≠ "-M" := fun hc => htok (by simp [hc])
  have h2 : tok ≠ "--max" := fun hc => htok (by simp [hc])
  obtain ⟨hm, hp⟩ := hQ
  rcases s with ⟨a, p⟩
  cases p with
  | some pp =>
    simp only [stepTok] at h
    split at h
    · exact Except.noConfusion h
    · cases pp <;> (repeat' split at h) <;>
        first
          | exact Except.noConfusion h
          | exact absurd rfl hp
          | (rw [Except.ok.injEq] at h; subst h; refine ⟨hm, ?_⟩; simp; done)
          | simp_all
  | none =>
    simp only [stepTok] at h
    repeat' split at h
    all_goals
      first
        | exact Except.noConfusion h
        | (rw [Except.ok.injEq] at h; subst h; refine ⟨hm, ?_⟩; simp; done)
        | simp_all

set_option maxHeartbeats 1000000 in
theorem stepTok_pres_order (s : MarkovArgs × Option Pending) (tok : String)
    (s2 : MarkovArgs × Option Pending) (h : stepTok s tok = Except.ok s2)
    (htok : tok ∉ (["-o", "--order"] : List String))
    (hQ : s.1.order = 3 ∧ s.2 ≠ some Pending.order) :
    s2.1.order = 3 ∧ s2.2 ≠ some Pending.order := by
  have h1 : tok ≠ "-o" := fun hc => htok (by simp [hc])
  have h2 : tok ≠ "--order" := fun hc => htok (by simp [hc])
  obtain ⟨hm, hp⟩ := hQ
  rcases s with ⟨a, p⟩
  cases p with
  | some pp =>
    simp only [stepTok] at h
    split at h
    · exact Except.noConfusion h
    · cases pp <;> (repeat' split at h) <;>
        first
          | exact Except.noConfusion h
          | exact absurd rfl hp
          | (rw [Except.ok.injEq] at h; subst h; refine ⟨hm, ?_⟩; simp; done)
          | simp_all
  | none =>
    simp only [stepTok] at h
    repeat' split at h
    all_goals
      first
        | exact Except.noConfusion h
        | (rw [Except.ok.injEq] at h; subst h; refine ⟨hm, ?_⟩; simp; done)
        | simp_all

set_option maxHeartbeats 1000000 in
theorem stepTok_pres_prior (s : MarkovArgs × Option Pending) (tok : String)
    (s2 : MarkovArgs × Option Pending) (h : stepTok s tok = Except.ok s2)
    (htok : tok ∉ (["-p", "--prior"] : List String))
    (hQ : s.1.prior = 0 ∧ s.2 ≠ some Pending.prior) :
    s2.1.prior = 0 ∧ s2.2 ≠ some Pending.prior := by
  have h1 : tok ≠ "-p" := fun hc => htok (by simp [hc])
  have h2 : tok ≠ "--prior" := fun hc => htok (by simp [hc])
  obtain ⟨hm, hp⟩ := hQ
  rcases s with ⟨a, p⟩
  cases p with
  | some pp =>
    simp only [stepTok] at h
    split at h
    · exact Except.noConfusion h
    · cases pp <;> (repeat' split at h) <;>
        first
          | exact Except.noConfusion h
          | exact absurd rfl hp
          | (rw [Except.ok.injEq] at h; subst h; refine ⟨hm, ?_⟩; simp; done)
          | simp_all
  | none =>
    simp only [stepTok] at h
    repeat' split at h
    all_goals
      first
        | exact Except.noConfusion h
        | (rw [Except.ok.injEq] at h; subst h; refine ⟨hm, ?_⟩; simp; done)
        | simp_all

set_option maxHeartbeats 1000000 in
theorem stepTok_pres_path (s : MarkovArgs × Option Pending) (tok : String)
    (s2 : MarkovArgs × Option Pending) (h : stepTok s tok = Except.ok s2)
    (htok : tok ∉ (["-i", "--input"] : List String))
    (hQ : s.1.path = none ∧ s.2 ≠ some Pending.input) :
    s2.1.path = none ∧ s2.2 ≠ some Pending.input := by
  have h1 : tok ≠ "-i" := fun hc => htok (by simp [hc])
  have h2 : tok ≠ "--input" := fun hc => htok (by simp [hc])
  obtain ⟨hm, hp⟩ := hQ
  rcases s with ⟨a, p⟩
  cases p with
  | some pp =>
    simp only [stepTok] at h
    split at h
    · exact Except.noConfusion h
    · cases pp <;> (repeat' split at h) <;>
        first
          | exact Except.noConfusion h
          | exact absurd rfl hp
          | (rw [Except.ok.injEq] at h; subst h; refine ⟨hm, ?_⟩; simp; done)
          | simp_all
  | none =>
    simp only [stepTok] at h
    repeat' split at h
    all_goals
      first
        | exact Except.noConfusion h
        | (rw [Except.ok.injEq] at h; subst h; refine ⟨hm, ?_⟩; simp; done)
        | simp_all

theorem parseMarkovArgs_ok_inv (args : List String) (a : MarkovArgs)
    (h : parseMarkovArgs args = Except.ok a) :
    parseMarkovLoop (initMarkov, none) args = Except.ok (a, none) ∧
      ¬(a.no_cache = true ∧ a.rebuild_cache = true) := by
  unfold parseMarkovArgs at h
  cases hloop : parseMarkovLoop (initMarkov, none) args with
  | error e => simp only [hloop] at h; exact Except.noConfusion h
  | ok s2 =>
    simp only [hloop] at h
    rcases s2 with ⟨b, p⟩
    cases p with
    | some pp => exact Except.noConfusion h
    | none =>
      cases hgb : (b.no_cache && b.rebuild_cache) with
      | true =>
        simp only [hgb] at h
        exact Except.noConfusion h
      | false =>
        simp only [hgb, Bool.false_eq_true, if_false] at h
        rw [Except.ok.injEq] at h
        subst h
        refine ⟨rfl, fun hcon => ?_⟩
        rw [hcon.1, hcon.2] at hgb
        exact absurd hgb (by decide)

/-! ## Claim theorems: markov CLI surface -/

/-- C5: supplying both `-N`/`--no-cache` and `-R`/`--rebuild-cache` in one
markov invocation is rejected by argument parsing
(`#[group(multiple = false)]` on `CacheControl`). -/
theorem markov_cache_flags_exclusive (args : List String)
    (hN : "-N" ∈ args ∨ "--no-cache" ∈ args)
    (hR : "-R" ∈ args ∨ "--rebuild-cache" ∈ args) :
    exceptIsOk (parseMarkovArgs args) = false := by
  cases hres : parseMarkovArgs args with
  | error e => rfl
  | ok a =>
    obtain ⟨hloop, hg⟩ := parseMarkovArgs_ok_inv args a hres
    have hnc : a.no_cache = true := by
      rcases hN with hf | hf
      · exact parseMarkovLoop_flag (fun st => st.1.no_cache = true) "-N" (by decide)
          (fun b s2 hs => by
            rw [stepTok_set_no_cache_short] at hs
            rw [Except.ok.injEq] at hs
            subst hs; rfl)
          (fun s tok s2 hst => (stepTok_mono s tok s2 hst).1)
          args (initMarkov, none) (a, none) hloop hf
      · exact parseMarkovLoop_flag (fun st => st.1.no_cache = true)
          "--no-cache" (by decide)
          (fun b s2 hs => by
            rw [stepTok_set_no_cache_long] at hs
            rw [Except.ok.injEq] at hs
            subst hs; rfl)
          (fun s tok s2 hst => (stepTok_mono s tok s2 hst).1)
          args (initMarkov, none) (a, none) hloop hf
    have hrc : a.rebuild_cache = true := by
      rcases hR with hf | hf
      · exact parseMarkovLoop_flag (fun st => st.1.rebuild_cache = true)
          "-R" (by decide)
          (fun b s2 hs => by
            rw [stepTok_set_rebuild_short] at hs
            rw [Except.ok.injEq] at hs
            subst hs; rfl)
          (fun s tok s2 hst => (stepTok_mono s tok s2 hst).2.1)
          args (initMarkov, none) (a, none) hloop hf
      · exact parseMarkovLoop_flag (fun st => st.1.rebuild_cache = true)
          "--rebuild-cache" (by decide)
          (fun b s2 hs => by
            rw [stepTok_set_rebuild_long] at hs
            rw [Except.ok.injEq] at hs
            subst hs; rfl)
          (fun s tok s2 hst => (stepTok_mono s tok s2 hst).2.1)
          args (initMarkov, none) (a, none) hloop hf
    exact absurd ⟨hnc, hrc⟩ hg

theorem markov_cache_flags_exclusive_witness :
    exceptIsOk (parseMarkovArgs ["-N", "-R"]) = false :=
  markov_cache_flags_exclusive ["-N", "-R"] (Or.inl (by simp))
    (Or.inl (by simp))

/-- C4: in the markov subcommand, when the corresponding option tokens are
omitted, `--min` defaults to 2, `--max` to 10, `--order` to 3 and `--prior`
to 0.0. -/
theorem markov_option_defaults (args : List String) (a : MarkovArgs)
    (h : parseMarkovArgs args = Except.ok a) :
    ("-m" ∉ args ∧ "--min" ∉ args → a.minimum = 2) ∧
    ("-M" ∉ args ∧ "--max" ∉ args → a.maximum = 10) ∧
    ("-o" ∉ args ∧ "--order" ∉ args → a.order = 3) ∧
    ("-p" ∉ args ∧ "--prior" ∉ args → a.prior = 0) := by
  obtain ⟨hloop, -⟩ := parseMarkovArgs_ok_inv args a h
  refine ⟨fun hx => ?_, fun hx => ?_, fun hx => ?_, fun hx => ?_⟩
  · exact (parseMarkovLoop_inv
      (fun st => st.1.minimum = 2 ∧ st.2 ≠ some Pending.min) ["-m", "--min"]
      stepTok_pres_min args (initMarkov, none) (a, none) hloop
      (by
        intro b hb
        simp only [List.mem_cons, List.not_mem_nil, or_false] at hb
        rcases hb with rfl | rfl
        · exact hx.1
        · exact hx.2) ⟨rfl, by simp⟩).1
  · exact (parseMarkovLoop_inv
      (fun st => st.1.maximum = 10 ∧ st.2 ≠ some Pending.max) ["-M", "--max"]
      stepTok_pres_max args (initMarkov, none) (a, none) hloop
      (by
        intro b hb
        simp only [List.mem_cons, List.not_mem_nil, or_false] at hb
        rcases hb with rfl | rfl
        · exact hx.1
        · exact hx.2) ⟨rfl, by simp⟩).1
  · exact (parseMarkovLoop_inv
      (fun st => st.1.order = 3 ∧ st.2 ≠ some Pending.order) ["-o", "--order"]
      stepTok_pres_order args (initMarkov, none) (a, none) hloop
      (by
        intro b hb
        simp only [List.mem_cons, List.not_mem_nil, or_false] at hb
        rcases hb with rfl | rfl
        · exact hx.1
        · exact hx.2) ⟨rfl, by simp⟩).1
  · exact (parseMarkovLoop_inv
      (fun st => st.1.prior = 0 ∧ st.2 ≠ some Pending.prior) ["-p", "--prior"]
      stepTok_pres_prior args (initMarkov, none) (a, none) hloop
      (by
        intro b hb
        simp only [List.mem_cons, List.not_mem_nil, or_false] at hb
        rcases hb with rfl | rfl
        · exact hx.1
        · exact hx.2) ⟨rfl, by simp⟩).1

theorem markov_option_defaults_witness :
    ("-m" ∉ ([] : List String) ∧ "--min" ∉ ([] : List String) →
      initMarkov.minimum = 2) ∧
    ("-M" ∉ ([] : List String) ∧ "--max" ∉ ([] : List String) →
      initMarkov.maximum = 10) ∧
    ("-o" ∉ ([] : List String) ∧ "--order" ∉ ([] : List String) →
      initMarkov.order = 3) ∧
    ("-p" ∉ ([] : List String) ∧ "--prior" ∉ ([] : List String) →
      initMarkov.prior = 0) :=
  markov_option_defaults [] initMarkov rfl

/-- C7: the corpus input option `-i`/`--input` is optional; when it is
omitted the parsed path is `none`, and the (spec-modelled) CorpusSource
then reads from standard input. -/
theorem markov_input_optional (args : List String) (a : MarkovArgs)
    (h : parseMarkovArgs args = Except.ok a)
    (h1 : "-i" ∉ args) (h2 : "--input" ∉ args) :
    a.path = none ∧ corpusInput a.path = CorpusSource.stdin := by
  obtain ⟨hloop, -⟩ := parseMarkovArgs_ok_inv args a h
  have hp : a.path = none :=
    (parseMarkovLoop_inv
      (fun st => st.1.path = none ∧ st.2 ≠ some Pending.input) ["-i", "--input"]
      stepTok_pres_path args (initMarkov, none) (a, none) hloop
      (by
        intro b hb
        simp only [List.mem_cons, List.not_mem_nil, or_false] at hb
        rcases hb with rfl | rfl
        · exact h1
        · exact h2) ⟨rfl, by simp⟩).1
  exact ⟨hp, by rw [hp]; rfl⟩

theorem markov_input_optional_witness :
    initMarkov.path = none ∧
      corpusInput initMarkov.path = CorpusSource.stdin :=
  markov_input_optional [] initMarkov rfl (by simp) (by simp)

/-- C1 counterexample: the markov subcommand does not accept a flag named
`--capitalize` (argument parsing rejects the token), and with no flag at
all the parsed `capitalize` field is `true`, so the (spec-modelled)
WordGenerator uppercases words precisely when the flag is absent — the
opposite of the claimed opt-in behaviour. -/
theorem markov_capitalize_claim_counterexample :
    exceptIsOk (parseMarkovArgs ["--capitalize"]) = false ∧
    parseMarkovArgs [] = Except.ok initMarkov ∧
    initMarkov.capitalize = true ∧
    applyCapitalize initMarkov.capitalize ['a', 'b'] = ['A', 'b'] := by
  refine ⟨rfl, rfl, rfl, ?_⟩
  decide

/-- C1 (amended): markov capitalization is opt-out: the flag is
`--no-capitalize` with short form `-C` (`ArgAction::SetFalse` on the
default-true `capitalize` field), and for every successfully parsed
invocation the parsed `capitalize` field — which the spec-modelled
WordGenerator uses to uppercase the first symbol of each generated word —
is false exactly when that flag is supplied. -/
theorem markov_capitalize_opt_out (args : List String) (a : MarkovArgs)
    (h : parseMarkovArgs args = Except.ok a) :
    (a.capitalize = false ↔ ("-C" ∈ args ∨ "--no-capitalize" ∈ args)) ∧
    ∀ (c : Char) (cs : List Char),
      applyCapitalize a.capitalize (c :: cs) =
        if a.capitalize then make_ascii_uppercase c :: cs else c :: cs := by
  obtain ⟨hloop, -⟩ := parseMarkovArgs_ok_inv args a h
  refine ⟨⟨?_, ?_⟩, fun c cs => rfl⟩
  · intro hcap
    by_contra hno
    push_neg at hno
    obtain ⟨hn1, hn2⟩ := hno
    have htrue : a.capitalize = true :=
      parseMarkovLoop_inv (fun st => st.1.capitalize = true)
        ["-C", "--no-capitalize"] stepTok_capitalize_true args
        (initMarkov, none) (a, none) hloop
        (by
          intro b hb
          simp only [List.mem_cons, List.not_mem_nil, or_false] at hb
          rcases hb with rfl | rfl
          · exact hn1
          · exact hn2) rfl
    rw [htrue] at hcap
    exact Bool.noConfusion hcap
  · intro hflag
    rcases hflag with hf | hf
    · exact parseMarkovLoop_flag (fun st => st.1.capitalize = false) "-C" (by decide)
        (fun b s2 hs => by
          rw [stepTok_set_capitalize_short] at hs
          rw [Except.ok.injEq] at hs
          subst hs; rfl)
        (fun s tok s2 hst => (stepTok_mono s tok s2 hst).2.2)
        args (initMarkov, none) (a, none) hloop hf
    · exact parseMarkovLoop_flag (fun st => st.1.capitalize = false)
        "--no-capitalize" (by decide)
        (fun b s2 hs => by
          rw [stepTok_set_capitalize_long] at hs
          rw [Except.ok.injEq] at hs
          subst hs; rfl)
        (fun s tok s2 hst => (stepTok_mono s tok s2 hst).2.2)
        args (initMarkov, none) (a, none) hloop hf

theorem markov_capitalize_opt_out_witness :
    (({ initMarkov with capitalize := false } : MarkovArgs).capitalize =
        false ↔
      ("-C" ∈ (["-C"] : List String) ∨
        "--no-capitalize" ∈ (["-C"] : List String))) ∧
    ∀ (c : Char) (cs : List Char),
      applyCapitalize
          ({ initMarkov with capitalize := false } : MarkovArgs).capitalize
          (c :: cs) =
        if ({ initMarkov with capitalize := false } : MarkovArgs).capitalize
        then make_ascii_uppercase c :: cs else c :: cs :=
  markov_capitalize_opt_out ["-C"]
    { initMarkov with capitalize := false } rfl
